import Mathlib

/-!
Verification of the discrete rasterization engine of `3lab/rasterization.py`:
Bresenham line rasterization (`bresenham_line`) and midpoint/Bresenham circle
rasterization (`bresenham_circle`), shallowly embedded over `Int`.
-/

namespace Rasterization

/-- The body of the `for x in range(x0, x1 + 1)` loop of `bresenham_line`:
`n` is the number of remaining iterations, `x`, `y`, `err` the loop state.
Each iteration appends the current point (transposed back when `steep`),
then updates `error += delta_error; if 2 * error >= dx: y += y_step; error -= dx`. -/
def lineLoop (steep : Bool) (dx dy ystep : Int) : Nat → Int → Int → Int → List (Int × Int)
  | 0, _, _, _ => []
  | n + 1, x, y, err =>
    (if steep then (y, x) else (x, y)) ::
      (if dx ≤ 2 * (err + dy)
       then lineLoop steep dx dy ystep n (x + 1) (y + ystep) (err + dy - dx)
       else lineLoop steep dx dy ystep n (x + 1) y (err + dy))

/-- The part of `bresenham_line` after the (possibly transposing) normalization:
`error = 0`, `delta_error = dy`, `y = y0`, `y_step = 1 if y1 > y0 else -1`,
walking `x` from `x0` to `x1` inclusive (here `x0 ≤ x1` always holds). -/
def lineWalk (steep : Bool) (dx dy x0 y0 x1 y1 : Int) : List (Int × Int) :=
  lineLoop steep dx dy (if y0 < y1 then 1 else -1) ((x1 - x0).toNat + 1) x0 y0 0

/-- The direction normalization of `bresenham_line`:
`if x0 > x1: x0, x1 = x1, x0; y0, y1 = y1, y0`. -/
def lineRun (steep : Bool) (dx dy x0 y0 x1 y1 : Int) : List (Int × Int) :=
  if x1 < x0 then lineWalk steep dx dy x1 y1 x0 y0 else lineWalk steep dx dy x0 y0 x1 y1

/-- `bresenham_line` of `3lab/rasterization.py` over integer inputs.
A vertical segment (`x0 == x1`) is emitted directly, in ascending `y`;
otherwise the segment is transposed when steep (`dy > dx`), normalized to walk
left to right, and rasterized by the Bresenham error loop. -/
def bresenham_line (x0 y0 x1 y1 : Int) : List (Int × Int) :=
  if x0 = x1 then
    (List.range ((max y0 y1 - min y0 y1).toNat + 1)).map
      (fun (i : Nat) => (x0, min y0 y1 + (i : Int)))
  else
    if |x1 - x0| < |y1 - y0| then
      lineRun true |y1 - y0| |x1 - x0| y0 x0 y1 x1
    else
      lineRun false |x1 - x0| |y1 - y0| x0 y0 x1 y1

/-- `add_circle_points` of `3lab/rasterization.py`: the eight symmetric
reflections of the octant offset `(x, y)` about the center `(cx, cy)`,
in the order the source appends them. -/
def add_circle_points (cx cy x y : Int) : List (Int × Int) :=
  [(cx + x, cy + y), (cx - x, cy + y),
   (cx + x, cy - y), (cx - x, cy - y),
   (cx + y, cy + x), (cx - y, cy + x),
   (cx + y, cy - x), (cx - y, cy - x)]

/-- The `while x <= y` loop of `bresenham_circle`, with state `(x, y, d)`:
each iteration updates the decision parameter `d` (and `y`, on the diagonal
branch), increments `x`, and emits the eight reflected points. -/
def circleLoop (cx cy : Int) (x y d : Int) : List (Int × Int) :=
  if _h : x ≤ y then
    add_circle_points cx cy (x + 1) (if d < 0 then y else y - 1) ++
      circleLoop cx cy (x + 1) (if d < 0 then y else y - 1)
        (if d < 0 then d + 4 * x + 6 else d + 4 * (x - y) + 10)
  else []
termination_by (y - x + 1).toNat
decreasing_by
  split <;> omega

/-- `bresenham_circle` of `3lab/rasterization.py`: emit the initial
eight-point expansion at `(x, y) = (0, radius)` with `d = 3 - 2 * radius`,
then run the `while x <= y` loop. -/
def bresenham_circle (center_x center_y radius : Int) : List (Int × Int) :=
  add_circle_points center_x center_y 0 radius ++
    circleLoop center_x center_y 0 radius (3 - 2 * radius)

/-- Rounding of a real square root to the nearest integer, expressed over `Nat`:
`roundSqrt s = round (Real.sqrt s)`, computed as `Nat.sqrt s`, bumped by one
exactly when `s` lies strictly above the midpoint band `sqrt s * sqrt s + sqrt s`. -/
def roundSqrt (s : Nat) : Nat :=
  if Nat.sqrt s * Nat.sqrt s + Nat.sqrt s < s then Nat.sqrt s + 1 else Nat.sqrt s

/-- Two grid cells are 8-connected when they differ by at most one unit in
each coordinate. -/
def adjacent (p q : Int × Int) : Prop :=
  |q.1 - p.1| ≤ 1 ∧ |q.2 - p.2| ≤ 1

/-! ### The line loop: length -/

theorem lineLoop_length (s : Bool) (dx dy ystep : Int) :
    ∀ (n : Nat) (x y err : Int), (lineLoop s dx dy ystep n x y err).length = n := by
  intro n
  induction n with
  | zero => intro x y err; rfl
  | succ n ih =>
    intro x y err
    rw [lineLoop]
    simp only [List.length_cons]
    split <;> rw [ih]

theorem lineWalk_length (s : Bool) (dx dy x0 y0 x1 y1 : Int) :
    (lineWalk s dx dy x0 y0 x1 y1).length = (x1 - x0).toNat + 1 := by
  rw [lineWalk, lineLoop_length]

theorem lineRun_length (s : Bool) (dx dy x0 y0 x1 y1 : Int) :
    (lineRun s dx dy x0 y0 x1 y1).length = (x1 - x0).natAbs + 1 := by
  rw [lineRun]
  split <;> rw [lineWalk_length] <;> omega

/-! ### The line loop: closed form

With `0 < dx`, `0 ≤ dy ≤ dx` and the error accumulator in the invariant band
`-dx ≤ 2*err < dx`, the `k`-th point of the walk is
`(x + k, y + ystep * ((2*(err + k*dy) + dx) / (2*dx)))` (before transposition). -/

theorem lineLoop_closed (s : Bool) (dx dy ystep : Int)
    (hdx : 0 < dx) (hdy : 0 ≤ dy) (hdxy : dy ≤ dx) :
    ∀ (n : Nat) (x y err : Int), -dx ≤ 2 * err → 2 * err < dx →
      lineLoop s dx dy ystep n x y err =
        (List.range n).map (fun (k : Nat) =>
          if s then (y + ystep * ((2 * (err + (k : Int) * dy) + dx) / (2 * dx)), x + (k : Int))
          else (x + (k : Int), y + ystep * ((2 * (err + (k : Int) * dy) + dx) / (2 * dx)))) := by
  have h2dx : (2 : Int) * dx ≠ 0 := by omega
  intro n
  induction n with
  | zero => intro x y err _ _; rfl
  | succ n ih =>
    intro x y err h1 h2
    have hq0 : (2 * err + dx) / (2 * dx) = 0 := by
      apply Int.ediv_eq_zero_of_lt <;> omega
    rw [List.range_succ_eq_map, List.map_cons, List.map_map, lineLoop]
    by_cases hstep : dx ≤ 2 * (err + dy)
    · -- advance-y branch: `2 * error >= dx`
      rw [if_pos hstep, ih (x + 1) (y + ystep) (err + dy - dx) (by omega) (by omega)]
      congr 1
      · simp [hq0]
      · apply List.map_congr_left
        intro k _
        have hnum : 2 * (err + ((k : Int) + 1) * dy) + dx =
            (2 * (err + dy - dx + (k : Int) * dy) + dx) + 1 * (2 * dx) := by ring
        simp only [Function.comp_apply, Nat.cast_succ, hnum, Int.add_mul_ediv_right _ _ h2dx]
        split <;> simp only [Prod.mk.injEq] <;> exact ⟨by ring, by ring⟩
    · -- keep-y branch
      rw [if_neg hstep, ih (x + 1) y (err + dy) (by omega) (by omega)]
      congr 1
      · simp [hq0]
      · apply List.map_congr_left
        intro k _
        have hnum : 2 * (err + ((k : Int) + 1) * dy) + dx =
            2 * (err + dy + (k : Int) * dy) + dx := by ring
        simp only [Function.comp_apply, Nat.cast_succ, hnum]
        split <;> simp only [Prod.mk.injEq] <;> exact ⟨by ring, by ring⟩

/-! ### Division band: the quotient advances by 0 or 1 per step -/

theorem ediv_band (c N d : Int) (hc : 0 < c) (h0 : 0 ≤ d) (h1 : d ≤ c) :
    N / c ≤ (N + d) / c ∧ (N + d) / c ≤ N / c + 1 := by
  refine ⟨Int.ediv_le_ediv hc (by omega), ?_⟩
  calc (N + d) / c ≤ (N + 1 * c) / c := Int.ediv_le_ediv hc (by omega)
  _ = N / c + 1 := Int.add_mul_ediv_right _ _ (by omega)

/-! ### Start and end points of the walk -/

theorem lineWalk_mem_start (s : Bool) (dx dy x0 y0 x1 y1 : Int) :
    (if s then (y0, x0) else (x0, y0)) ∈ lineWalk s dx dy x0 y0 x1 y1 := by
  rw [lineWalk, lineLoop]
  exact List.mem_cons_self _ _

theorem lineWalk_mem_end (s : Bool) (dx dy x0 y0 x1 y1 : Int)
    (hdx : 0 < dx) (hdy : 0 ≤ dy) (hdxy : dy ≤ dx)
    (hxe : x1 - x0 = dx) (hye : dy = |y1 - y0|) :
    (if s then (y1, x1) else (x1, y1)) ∈ lineWalk s dx dy x0 y0 x1 y1 := by
  have h2dx : (2 : Int) * dx ≠ 0 := by omega
  rw [lineWalk, lineLoop_closed s dx dy _ hdx hdy hdxy _ x0 y0 0 (by omega) (by omega)]
  refine List.mem_map.mpr ⟨dx.toNat, List.mem_range.mpr (by omega), ?_⟩
  have hcast : ((dx.toNat : Nat) : Int) = dx := Int.toNat_of_nonneg (by omega)
  have hnum : 2 * ((0 : Int) + dx * dy) + dx = dx + dy * (2 * dx) := by ring
  have hdx0 : dx / (2 * dx) = 0 := Int.ediv_eq_zero_of_lt (by omega) (by omega)
  have hq : (2 * ((0 : Int) + dx * dy) + dx) / (2 * dx) = dy := by
    rw [hnum, Int.add_mul_ediv_right _ _ h2dx, hdx0, zero_add]
  have hxend : x0 + dx = x1 := by omega
  have hyend : y0 + (if y0 < y1 then (1 : Int) else -1) * dy = y1 := by
    rcases lt_or_le y0 y1 with h | h
    · rw [if_pos h, hye, abs_of_nonneg (by omega)]; ring
    · rw [if_neg (by omega), hye, abs_of_nonpos (by omega)]; ring
  simp only [hcast, hq, hxend, hyend]

theorem lineRun_mem_endpoints (s : Bool) (dx dy x0 y0 x1 y1 : Int)
    (hdx : 0 < dx) (hdy : 0 ≤ dy) (hdxy : dy ≤ dx)
    (hdxe : dx = |x1 - x0|) (hdye : dy = |y1 - y0|) :
    (if s then (y0, x0) else (x0, y0)) ∈ lineRun s dx dy x0 y0 x1 y1 ∧
      (if s then (y1, x1) else (x1, y1)) ∈ lineRun s dx dy x0 y0 x1 y1 := by
  rw [lineRun]
  split
  · rename_i hlt
    have hxe : x0 - x1 = dx := by
      rw [hdxe, abs_of_neg (by omega : x1 - x0 < 0)]; ring
    have hye : dy = |y0 - y1| := by rw [hdye, abs_sub_comm]
    exact ⟨lineWalk_mem_end s dx dy x1 y1 x0 y0 hdx hdy hdxy hxe hye,
      lineWalk_mem_start s dx dy x1 y1 x0 y0⟩
  · rename_i hnlt
    rcases eq_or_lt_of_le (by omega : x0 ≤ x1) with heq | hlt
    · have hxe : x1 - x0 = dx := by
        rw [hdxe, heq]; simp
      exact ⟨lineWalk_mem_start s dx dy x0 y0 x1 y1,
        lineWalk_mem_end s dx dy x0 y0 x1 y1 hdx hdy hdxy hxe hdye⟩
    · have hxe : x1 - x0 = dx := by
        rw [hdxe, abs_of_pos (by omega : (0 : Int) < x1 - x0)]
      exact ⟨lineWalk_mem_start s dx dy x0 y0 x1 y1,
        lineWalk_mem_end s dx dy x0 y0 x1 y1 hdx hdy hdxy hxe hdye⟩

/-! ### 8-connectivity of the walk -/

theorem lineWalk_chain (s : Bool) (dx dy x0 y0 x1 y1 : Int)
    (hdx : 0 < dx) (hdy : 0 ≤ dy) (hdxy : dy ≤ dx) :
    List.Chain' adjacent (lineWalk s dx dy x0 y0 x1 y1) := by
  rw [lineWalk]
  have hY : (if y0 < y1 then (1 : Int) else -1) = 1 ∨
      (if y0 < y1 then (1 : Int) else -1) = -1 := by
    split
    · exact Or.inl rfl
    · exact Or.inr rfl
  generalize (if y0 < y1 then (1 : Int) else -1) = Y at hY ⊢
  rw [lineLoop_closed s dx dy Y hdx hdy hdxy _ x0 y0 0 (by omega) (by omega)]
  rw [List.chain'_map]
  rw [show (x1 - x0).toNat + 1 = Nat.succ (x1 - x0).toNat from rfl, List.chain'_range_succ]
  intro m _
  simp only [Nat.cast_succ]
  have hnum : 2 * ((0 : Int) + ((m : Int) + 1) * dy) + dx =
      (2 * ((0 : Int) + (m : Int) * dy) + dx) + 2 * dy := by ring
  obtain ⟨hlo, hhi⟩ := ediv_band (2 * dx) (2 * ((0 : Int) + (m : Int) * dy) + dx)
    (2 * dy) (by omega) (by omega) (by omega)
  rw [← hnum] at hlo hhi
  have hx1 : |(x0 + ((m : Int) + 1)) - (x0 + (m : Int))| ≤ 1 := by
    rw [show x0 + ((m : Int) + 1) - (x0 + (m : Int)) = 1 by ring]
    norm_num
  have hy1 : |(y0 + Y * ((2 * ((0 : Int) + ((m : Int) + 1) * dy) + dx) / (2 * dx))) -
      (y0 + Y * ((2 * ((0 : Int) + (m : Int) * dy) + dx) / (2 * dx)))| ≤ 1 := by
    rw [show (y0 + Y * ((2 * ((0 : Int) + ((m : Int) + 1) * dy) + dx) / (2 * dx))) -
        (y0 + Y * ((2 * ((0 : Int) + (m : Int) * dy) + dx) / (2 * dx))) =
        Y * ((2 * ((0 : Int) + ((m : Int) + 1) * dy) + dx) / (2 * dx) -
          (2 * ((0 : Int) + (m : Int) * dy) + dx) / (2 * dx)) by ring]
    rcases hY with h | h <;> rw [h]
    · rw [one_mul, abs_le]
      constructor <;> linarith
    · rw [neg_one_mul, abs_neg, abs_le]
      constructor <;> linarith
  cases s
  · exact ⟨hx1, hy1⟩
  · exact ⟨hy1, hx1⟩

theorem lineRun_chain (s : Bool) (dx dy x0 y0 x1 y1 : Int)
    (hdx : 0 < dx) (hdy : 0 ≤ dy) (hdxy : dy ≤ dx) :
    List.Chain' adjacent (lineRun s dx dy x0 y0 x1 y1) := by
  rw [lineRun]
  split <;> apply lineWalk_chain <;> assumption

/-! ### Endpoint-order symmetry -/

theorem lineRun_symm (s : Bool) (dx dy x0 y0 x1 y1 : Int) (h : x0 ≠ x1) :
    lineRun s dx dy x0 y0 x1 y1 = lineRun s dx dy x1 y1 x0 y0 := by
  rw [lineRun, lineRun]
  split <;> split <;> first | rfl | (exfalso; omega)

theorem bresenham_line_symm (x0 y0 x1 y1 : Int) :
    bresenham_line x0 y0 x1 y1 = bresenham_line x1 y1 x0 y0 := by
  rw [bresenham_line, bresenham_line]
  by_cases hv : x0 = x1
  · rw [if_pos hv, if_pos hv.symm, max_comm y1 y0, min_comm y1 y0, hv]
  · rw [if_neg hv, if_neg (Ne.symm hv), abs_sub_comm x0 x1, abs_sub_comm y0 y1]
    by_cases hs : |x1 - x0| < |y1 - y0|
    · rw [if_pos hs, if_pos hs]
      apply lineRun_symm
      intro he
      rw [he, sub_self, abs_zero] at hs
      exact absurd hs (not_lt.mpr (abs_nonneg _))
    · rw [if_neg hs, if_neg hs]
      exact lineRun_symm _ _ _ _ _ _ _ hv

/-! ### Claim theorems for the line rasterizer -/

/-- C3: for all integer endpoints, the list returned by `bresenham_line`
contains both `(x0, y0)` and `(x1, y1)`. -/
theorem line_includes_endpoints (x0 y0 x1 y1 : Int) :
    (x0, y0) ∈ bresenham_line x0 y0 x1 y1 ∧ (x1, y1) ∈ bresenham_line x0 y0 x1 y1 := by
  rw [bresenham_line]
  split
  · rename_i hv
    subst hv
    constructor
    · refine List.mem_map.mpr ⟨(y0 - min y0 y1).toNat, List.mem_range.mpr (by omega), ?_⟩
      simp only [Prod.mk.injEq]
      exact ⟨trivial, by omega⟩
    · refine List.mem_map.mpr ⟨(y1 - min y0 y1).toNat, List.mem_range.mpr (by omega), ?_⟩
      simp only [Prod.mk.injEq]
      exact ⟨trivial, by omega⟩
  · rename_i hv
    split
    · rename_i hs
      have h0 : (0 : Int) ≤ |x1 - x0| := abs_nonneg _
      have hpos : (0 : Int) < |y1 - y0| := lt_of_le_of_lt h0 hs
      have h := lineRun_mem_endpoints true (|y1 - y0|) (|x1 - x0|) y0 x0 y1 x1
        hpos h0 (le_of_lt hs) rfl rfl
      simpa using h
    · rename_i hs
      have hxne : (0 : Int) < |x1 - x0| := abs_pos.mpr (sub_ne_zero.mpr (Ne.symm hv))
      have h := lineRun_mem_endpoints false (|x1 - x0|) (|y1 - y0|) x0 y0 x1 y1
        hxne (abs_nonneg _) (not_lt.mp hs) rfl rfl
      simpa using h

/-- C5: consecutive points of `bresenham_line` differ by at most one unit in
each coordinate (8-connectivity). -/
theorem line_consecutive_adjacent (x0 y0 x1 y1 : Int) :
    List.Chain' adjacent (bresenham_line x0 y0 x1 y1) := by
  rw [bresenham_line]
  split
  · rw [show (max y0 y1 - min y0 y1).toNat + 1 = Nat.succ (max y0 y1 - min y0 y1).toNat
      from rfl]
    rw [List.chain'_map, List.chain'_range_succ]
    intro m _
    refine ⟨by simp, ?_⟩
    have hc : min y0 y1 + ((Nat.succ m : Nat) : Int) - (min y0 y1 + (m : Int)) = 1 := by
      push_cast
      ring
    rw [hc]
    norm_num
  · rename_i hv
    split
    · rename_i hs
      exact lineRun_chain true (|y1 - y0|) (|x1 - x0|) y0 x0 y1 x1
        (lt_of_le_of_lt (abs_nonneg _) hs) (abs_nonneg _) (le_of_lt hs)
    · rename_i hs
      exact lineRun_chain false (|x1 - x0|) (|y1 - y0|) x0 y0 x1 y1
        (abs_pos.mpr (sub_ne_zero.mpr (Ne.symm hv))) (abs_nonneg _) (not_lt.mp hs)

/-- C6: reversing the endpoints leaves the set of rasterized points unchanged:
every point belongs to `bresenham_line x0 y0 x1 y1` exactly when it belongs to
`bresenham_line x1 y1 x0 y0`. -/
theorem line_reverse_same_points (x0 y0 x1 y1 : Int) (p : Int × Int) :
    p ∈ bresenham_line x0 y0 x1 y1 ↔ p ∈ bresenham_line x1 y1 x0 y0 := by
  rw [bresenham_line_symm]

/-- C7: a degenerate segment with equal endpoints rasterizes to the single
point `(a, b)`. -/
theorem line_equal_endpoints (a b : Int) : bresenham_line a b a b = [(a, b)] := by
  rw [bresenham_line, if_pos rfl]
  simp [List.range_succ]

/-- C8: the list returned by `bresenham_line` has exactly
`max |x1 - x0| |y1 - y0| + 1` points. -/
theorem line_length (x0 y0 x1 y1 : Int) :
    (bresenham_line x0 y0 x1 y1).length = (max |x1 - x0| |y1 - y0|).toNat + 1 := by
  rw [bresenham_line]
  split
  · rename_i hv
    subst hv
    simp only [List.length_map, List.length_range, sub_self, abs_zero]
    rw [max_sub_min_eq_abs, max_eq_right (abs_nonneg _)]
  · rename_i hv
    split
    · rename_i hs
      rw [lineRun_length, max_eq_right (le_of_lt hs), Int.abs_eq_natAbs]
      omega
    · rename_i hs
      rw [lineRun_length, max_eq_left (not_lt.mp hs), Int.abs_eq_natAbs]
      omega

/-- C9: reversing the endpoints yields the identical ordered list of points,
not merely the same set: both calls normalize to the same canonical walk. -/
theorem line_reverse_eq (x0 y0 x1 y1 : Int) :
    bresenham_line x0 y0 x1 y1 = bresenham_line x1 y1 x0 y0 :=
  bresenham_line_symm x0 y0 x1 y1

/-! ### Unfolding the circle loop -/

theorem circleLoop_step (cx cy x y d : Int) (h : x ≤ y) :
    circleLoop cx cy x y d =
      add_circle_points cx cy (x + 1) (if d < 0 then y else y - 1) ++
        circleLoop cx cy (x + 1) (if d < 0 then y else y - 1)
          (if d < 0 then d + 4 * x + 6 else d + 4 * (x - y) + 10) := by
  rw [circleLoop]
  rw [dif_pos h]

theorem circleLoop_stop (cx cy x y d : Int) (h : ¬x ≤ y) :
    circleLoop cx cy x y d = [] := by
  rw [circleLoop]
  rw [dif_neg h]

/-- For a negative radius the `while x <= y` guard `0 ≤ r` fails at once, so
the output is exactly the initial eight-point expansion at `(x, y) = (0, r)`. -/
theorem bresenham_circle_neg (cx cy r : Int) (h : r < 0) :
    bresenham_circle cx cy r =
      [(cx, cy + r), (cx, cy + r), (cx, cy - r), (cx, cy - r),
       (cx + r, cy), (cx - r, cy), (cx + r, cy), (cx - r, cy)] := by
  rw [bresenham_circle, circleLoop_stop _ _ _ _ _ (by omega), List.append_nil,
    add_circle_points]
  norm_num

/-- For `r = 0` the loop guard `0 ≤ 0` passes once: the decision parameter is
`3`, so the diagonal branch runs, and the expansion at `(x, y) = (1, -1)` is
emitted after the eight copies of the center. -/
theorem bresenham_circle_zero (cx cy : Int) :
    bresenham_circle cx cy 0 =
      [(cx, cy), (cx, cy), (cx, cy), (cx, cy), (cx, cy), (cx, cy), (cx, cy), (cx, cy),
       (cx + 1, cy - 1), (cx - 1, cy - 1), (cx + 1, cy + 1), (cx - 1, cy + 1),
       (cx - 1, cy + 1), (cx + 1, cy + 1), (cx - 1, cy - 1), (cx + 1, cy - 1)] := by
  rw [bresenham_circle, circleLoop_step _ _ _ _ _ (by norm_num)]
  norm_num
  rw [circleLoop_stop _ _ _ _ _ (by norm_num), List.append_nil, add_circle_points,
    add_circle_points]
  norm_num
  omega

/-! ### Claim theorems for invalid and zero radii -/

/-- C1 counterexample: `bresenham_circle` does not reject a negative radius;
at `(0, 0, -1)` it returns a non-empty list of points instead of failing. -/
theorem circle_neg_radius_not_rejected :
    bresenham_circle 0 0 (-1) ≠ ([] : List (Int × Int)) := by
  rw [bresenham_circle_neg 0 0 (-1) (by norm_num)]
  decide

/-- C1 (amended): `bresenham_circle` performs no validation of the radius.
For every `r < 0` it raises no error: the loop body never runs and the result
is exactly the initial eight-point expansion at `(x, y) = (0, r)`. -/
theorem circle_neg_radius_output (cx cy r : Int) (h : r < 0) :
    bresenham_circle cx cy r =
      [(cx, cy + r), (cx, cy + r), (cx, cy - r), (cx, cy - r),
       (cx + r, cy), (cx - r, cy), (cx + r, cy), (cx - r, cy)] :=
  bresenham_circle_neg cx cy r h

/-- Witness for `circle_neg_radius_output` at `(cx, cy, r) = (0, 0, -1)`. -/
theorem circle_neg_radius_output_witness :
    (-1 : Int) < 0 ∧
      bresenham_circle 0 0 (-1) =
        [((0 : Int), (0 : Int) + -1), (0, 0 + -1), (0, 0 - -1), (0, 0 - -1),
         (0 + -1, 0), (0 - -1, 0), (0 + -1, 0), (0 - -1, 0)] :=
  ⟨by norm_num, circle_neg_radius_output 0 0 (-1) (by norm_num)⟩

/-- C2 counterexample: at radius `0` the output is not made of copies of the
center only: the point `(1, -1)` is produced by `bresenham_circle 0 0 0` and
differs from the center `(0, 0)`. -/
theorem circle_zero_radius_extra_point :
    ((1 : Int), (-1 : Int)) ∈ bresenham_circle 0 0 0 ∧
      ((1 : Int), (-1 : Int)) ≠ ((0 : Int), (0 : Int)) := by
  rw [bresenham_circle_zero 0 0]
  decide

/-- C2 (amended): `bresenham_circle cx cy 0` returns sixteen points, not only
the center: the center `(cx, cy)` eight times (the collapsed initial
expansion), followed by the four corner points `(cx ± 1, cy ± 1)` each twice,
emitted by the one loop iteration the guard `x ≤ y` still allows at `r = 0`. -/
theorem circle_zero_radius_output (cx cy : Int) :
    bresenham_circle cx cy 0 =
      [(cx, cy), (cx, cy), (cx, cy), (cx, cy), (cx, cy), (cx, cy), (cx, cy), (cx, cy),
       (cx + 1, cy - 1), (cx - 1, cy - 1), (cx + 1, cy + 1), (cx - 1, cy + 1),
       (cx - 1, cy + 1), (cx + 1, cy + 1), (cx - 1, cy - 1), (cx + 1, cy - 1)] :=
  bresenham_circle_zero cx cy

/-! ### Reflection symmetry of the circle output -/

theorem perm_pairs {α : Type} (a b : α) {l m : List α} (h : l.Perm m) :
    (a :: b :: l).Perm (b :: a :: m) :=
  (List.Perm.swap b a l).trans ((h.cons a).cons b)

theorem perm_quads {α : Type} (a b c d : α) {l m : List α} (h : l.Perm m) :
    (a :: b :: c :: d :: l).Perm (c :: d :: a :: b :: m) := by
  have h1 : ([a, b] ++ [c, d]).Perm ([c, d] ++ [a, b]) := List.perm_append_comm
  have h2 : (([a, b] ++ [c, d]) ++ l).Perm (([c, d] ++ [a, b]) ++ l) := h1.append_right l
  have h3 : (([c, d] ++ [a, b]) ++ l).Perm (([c, d] ++ [a, b]) ++ m) :=
    List.Perm.append_left _ h
  exact h2.trans h3

theorem add_circle_points_map_vert (cx cy x y : Int) :
    (add_circle_points cx cy x y).map (fun p => (2 * cx - p.1, p.2)) =
      [(cx - x, cy + y), (cx + x, cy + y), (cx - x, cy - y), (cx + x, cy - y),
       (cx - y, cy + x), (cx + y, cy + x), (cx - y, cy - x), (cx + y, cy - x)] := by
  simp only [add_circle_points, List.map_cons, List.map_nil, List.cons.injEq,
    Prod.mk.injEq, and_true, true_and]
  omega

theorem add_circle_points_map_horiz (cx cy x y : Int) :
    (add_circle_points cx cy x y).map (fun p => (p.1, 2 * cy - p.2)) =
      [(cx + x, cy - y), (cx - x, cy - y), (cx + x, cy + y), (cx - x, cy + y),
       (cx + y, cy - x), (cx - y, cy - x), (cx + y, cy + x), (cx - y, cy + x)] := by
  simp only [add_circle_points, List.map_cons, List.map_nil, List.cons.injEq,
    Prod.mk.injEq, and_true, true_and]
  omega

theorem add_circle_points_perm_vert (cx cy x y : Int) :
    ((add_circle_points cx cy x y).map (fun p => (2 * cx - p.1, p.2))).Perm
      (add_circle_points cx cy x y) := by
  rw [add_circle_points_map_vert, add_circle_points]
  exact perm_pairs _ _ (perm_pairs _ _ (perm_pairs _ _ (perm_pairs _ _ (List.Perm.refl []))))

theorem add_circle_points_perm_horiz (cx cy x y : Int) :
    ((add_circle_points cx cy x y).map (fun p => (p.1, 2 * cy - p.2))).Perm
      (add_circle_points cx cy x y) := by
  rw [add_circle_points_map_horiz, add_circle_points]
  exact perm_quads _ _ _ _ (perm_quads _ _ _ _ (List.Perm.refl []))

theorem circleLoop_map_perm (cx cy : Int) (f : Int × Int → Int × Int)
    (hf : ∀ a b : Int,
      ((add_circle_points cx cy a b).map f).Perm (add_circle_points cx cy a b)) :
    ∀ (n : Nat) (x y d : Int), (y - x + 1).toNat ≤ n →
      ((circleLoop cx cy x y d).map f).Perm (circleLoop cx cy x y d) := by
  intro n
  induction n with
  | zero =>
    intro x y d hn
    rw [circleLoop_stop _ _ _ _ _ (by omega)]
    simp
  | succ n ih =>
    intro x y d hn
    by_cases hxy : x ≤ y
    · rw [circleLoop_step _ _ _ _ _ hxy, List.map_append]
      rcases lt_or_le d 0 with hd | hd
      · simp only [if_pos hd]
        exact (hf _ _).append (ih (x + 1) y (d + 4 * x + 6) (by omega))
      · simp only [if_neg (not_lt.mpr hd)]
        exact (hf _ _).append (ih (x + 1) (y - 1) (d + 4 * (x - y) + 10) (by omega))
    · rw [circleLoop_stop _ _ _ _ _ hxy]
      simp

theorem circleLoop_length_eight (cx cy : Int) :
    ∀ (n : Nat) (x y d : Int), (y - x + 1).toNat ≤ n →
      ∃ k : Nat, (circleLoop cx cy x y d).length = 8 * k := by
  intro n
  induction n with
  | zero =>
    intro x y d hn
    rw [circleLoop_stop _ _ _ _ _ (by omega)]
    exact ⟨0, rfl⟩
  | succ n ih =>
    intro x y d hn
    by_cases hxy : x ≤ y
    · rw [circleLoop_step _ _ _ _ _ hxy, List.length_append]
      rcases lt_or_le d 0 with hd | hd
      · simp only [if_pos hd]
        obtain ⟨k, hk⟩ := ih (x + 1) y (d + 4 * x + 6) (by omega)
        refine ⟨k + 1, ?_⟩
        rw [hk, show (add_circle_points cx cy (x + 1) y).length = 8 from rfl]
        ring
      · simp only [if_neg (not_lt.mpr hd)]
        obtain ⟨k, hk⟩ := ih (x + 1) (y - 1) (d + 4 * (x - y) + 10) (by omega)
        refine ⟨k + 1, ?_⟩
        rw [hk, show (add_circle_points cx cy (x + 1) (y - 1)).length = 8 from rfl]
        ring
    · rw [circleLoop_stop _ _ _ _ _ hxy]
      exact ⟨0, rfl⟩

/-- C10: the multiset of points of `bresenham_circle` is invariant under
reflection across the vertical line through the center and across the
horizontal line through the center, and its length is a positive multiple
of eight — each emission is a block of eight reflected points, and the
initial block is always emitted. -/
theorem circle_reflection_symmetry (cx cy r : Int) :
    ((bresenham_circle cx cy r).map (fun p => (2 * cx - p.1, p.2))).Perm
        (bresenham_circle cx cy r) ∧
      ((bresenham_circle cx cy r).map (fun p => (p.1, 2 * cy - p.2))).Perm
        (bresenham_circle cx cy r) ∧
      ∃ k : Nat, 0 < k ∧ (bresenham_circle cx cy r).length = 8 * k := by
  refine ⟨?_, ?_, ?_⟩
  · rw [bresenham_circle, List.map_append]
    exact (add_circle_points_perm_vert cx cy 0 r).append
      (circleLoop_map_perm cx cy _ (add_circle_points_perm_vert cx cy)
        (r - 0 + 1).toNat 0 r (3 - 2 * r) le_rfl)
  · rw [bresenham_circle, List.map_append]
    exact (add_circle_points_perm_horiz cx cy 0 r).append
      (circleLoop_map_perm cx cy _ (add_circle_points_perm_horiz cx cy)
        (r - 0 + 1).toNat 0 r (3 - 2 * r) le_rfl)
  · rw [bresenham_circle, List.length_append]
    obtain ⟨k, hk⟩ := circleLoop_length_eight cx cy (r - 0 + 1).toNat 0 r (3 - 2 * r) le_rfl
    refine ⟨k + 1, by omega, ?_⟩
    rw [hk, show (add_circle_points cx cy 0 r).length = 8 from rfl]
    ring

/-! ### Rounded distance of the circle points

`roundSqrt s = k` exactly when `k*k - k + 1 ≤ s ≤ k*k + k` (for `k ≥ 1`),
i.e. when `sqrt s` rounds to `k`. -/

theorem roundSqrt_le (s k : Nat) (h : s ≤ k * k + k) : roundSqrt s ≤ k := by
  have hsq : Nat.sqrt s ≤ k := by
    by_contra hgt
    push_neg at hgt
    have h1 : (k + 1) * (k + 1) ≤ s := Nat.le_sqrt.mp (by omega)
    have hexp : (k + 1) * (k + 1) = k * k + 2 * k + 1 := by ring
    omega
  rw [roundSqrt]
  split
  · rename_i hlt
    by_cases heq : Nat.sqrt s = k
    · rw [heq] at hlt
      omega
    · omega
  · exact hsq

theorem le_roundSqrt (s k : Nat) (hk : 1 ≤ k) (h : k * k + 1 ≤ s + k) : k ≤ roundSqrt s := by
  obtain ⟨j, rfl⟩ : ∃ j, k = j + 1 := ⟨k - 1, by omega⟩
  have hexp : (j + 1) * (j + 1) = j * j + 2 * j + 1 := by ring
  have hjs : j * j ≤ s := by omega
  have hsq : j ≤ Nat.sqrt s := Nat.le_sqrt.mpr hjs
  rw [roundSqrt]
  split
  · omega
  · rename_i hge
    by_cases hj : j + 1 ≤ Nat.sqrt s
    · omega
    · have hj' : Nat.sqrt s = j := by omega
      rw [hj'] at hge
      omega

/-- If `s` lies within the band `[r^2 - r, r^2 + r + 4]` around `r^2` (with
`r ≥ 1`) then `sqrt s` rounds to `r - 1`, `r` or `r + 1`. -/
theorem roundSqrt_band (r s : Int) (hr : 1 ≤ r)
    (hlo : r ^ 2 - r ≤ s) (hhi : s ≤ r ^ 2 + r + 4) :
    |((roundSqrt s.toNat : Nat) : Int) - r| ≤ 1 := by
  obtain ⟨R, rfl⟩ : ∃ R : Nat, r = (R : Int) := ⟨r.toNat, by omega⟩
  have hR : 1 ≤ R := by exact_mod_cast hr
  have hsq : ((R * R : Nat) : Int) = (R : Int) ^ 2 := by push_cast; ring
  rw [← hsq] at hlo hhi
  have h1 : R * R ≤ s.toNat + R := by omega
  have h2 : s.toNat ≤ R * R + R + 4 := by omega
  have hup : roundSqrt s.toNat ≤ R + 1 := by
    apply roundSqrt_le
    have hexp : (R + 1) * (R + 1) + (R + 1) = R * R + 3 * R + 2 := by ring
    omega
  have hlow : R - 1 ≤ roundSqrt s.toNat := by
    rcases Nat.lt_or_ge R 2 with hR2 | hR2
    · omega
    · obtain ⟨j, rfl⟩ : ∃ j, R = j + 2 := ⟨R - 2, by omega⟩
      have hkk : j + 2 - 1 = j + 1 := by omega
      apply le_roundSqrt _ _ (by omega)
      rw [hkk]
      have hexp1 : (j + 1) * (j + 1) = j * j + 2 * j + 1 := by ring
      have hexp2 : (j + 2) * (j + 2) = j * j + 4 * j + 4 := by ring
      omega
  rw [abs_le]
  constructor <;> omega

/-- Every point of an eight-point expansion block lies at squared distance
`x^2 + y^2` from the center. -/
theorem add_circle_points_mem (cx cy x y px py : Int)
    (hp : (px, py) ∈ add_circle_points cx cy x y) :
    (px - cx) ^ 2 + (py - cy) ^ 2 = x ^ 2 + y ^ 2 := by
  simp only [add_circle_points, List.mem_cons, List.not_mem_nil, or_false,
    Prod.mk.injEq] at hp
  rcases hp with ⟨h1, h2⟩ | ⟨h1, h2⟩ | ⟨h1, h2⟩ | ⟨h1, h2⟩ |
    ⟨h1, h2⟩ | ⟨h1, h2⟩ | ⟨h1, h2⟩ | ⟨h1, h2⟩ <;> subst h1 <;> subst h2 <;> ring

/-- Loop invariant for the midpoint circle: with the decision parameter tied
to the state by `d = 2*(x+1)^2 + (y-1)^2 + y^2 - 2*r^2` and bounded by
`4x - 4y + 2 ≤ d` and (while the guard holds) `d ≤ 4x + 5`, every emitted
point keeps its squared distance to the center inside
`[r^2 - r, r^2 + r + 4]`. -/
theorem circleLoop_dist (cx cy r : Int) (hr : 1 ≤ r) :
    ∀ (n : Nat) (x y d : Int), (y - x + 1).toNat ≤ n →
      0 ≤ x → y ≤ r →
      d = 2 * (x + 1) ^ 2 + (y - 1) ^ 2 + y ^ 2 - 2 * r ^ 2 →
      4 * x - 4 * y + 2 ≤ d →
      (x ≤ y → d ≤ 4 * x + 5) →
      ∀ p ∈ circleLoop cx cy x y d,
        r ^ 2 - r ≤ (p.1 - cx) ^ 2 + (p.2 - cy) ^ 2 ∧
          (p.1 - cx) ^ 2 + (p.2 - cy) ^ 2 ≤ r ^ 2 + r + 4 := by
  intro n
  induction n with
  | zero =>
    intro x y d hn _ _ _ _ _ p hp
    rw [circleLoop_stop _ _ _ _ _ (by omega)] at hp
    exact absurd hp (List.not_mem_nil p)
  | succ n ih =>
    intro x y d hn hx hyr hd1 hd5 hd4 p hp
    by_cases hxy : x ≤ y
    · have hd4t : d ≤ 4 * x + 5 := hd4 hxy
      rw [circleLoop_step _ _ _ _ _ hxy] at hp
      rcases List.mem_append.mp hp with hblk | hrec
      · obtain ⟨px, py⟩ := p
        by_cases hdneg : d < 0
        · rw [if_pos hdneg] at hblk
          have hs := add_circle_points_mem cx cy (x + 1) y px py hblk
          have key : 2 * ((px - cx) ^ 2 + (py - cy) ^ 2) = d + 2 * y - 1 + 2 * r ^ 2 := by
            rw [hs, hd1]
            ring
          constructor
          · linarith [key, hd5, hx, hyr]
          · linarith [key, hdneg, hyr]
        · rw [if_neg hdneg] at hblk
          have hdge : 0 ≤ d := not_lt.mp hdneg
          have hs := add_circle_points_mem cx cy (x + 1) (y - 1) px py hblk
          have key : 2 * ((px - cx) ^ 2 + (py - cy) ^ 2) = d - 2 * y + 1 + 2 * r ^ 2 := by
            rw [hs, hd1]
            ring
          constructor
          · linarith [key, hdge, hyr]
          · linarith [key, hd4t, hxy, hyr]
      · by_cases hdneg : d < 0
        · simp only [if_pos hdneg] at hrec
          exact ih (x + 1) y (d + 4 * x + 6) (by omega) (by omega) hyr
            (by rw [hd1]; ring) (by omega) (fun _ => by omega) p hrec
        · simp only [if_neg hdneg] at hrec
          have hdge : 0 ≤ d := not_lt.mp hdneg
          exact ih (x + 1) (y - 1) (d + 4 * (x - y) + 10) (by omega) (by omega) (by omega)
            (by rw [hd1]; ring) (by omega) (fun hle => by omega) p hrec
    · rw [circleLoop_stop _ _ _ _ _ hxy] at hp
      exact absurd hp (List.not_mem_nil p)

/-- C4: for every center and every radius `r ≥ 0`, each point produced by
`bresenham_circle` has a Euclidean distance to the center whose rounded value
differs from `r` by at most one. -/
theorem circle_dist_round (cx cy r : Int) (hr : 0 ≤ r) :
    ∀ p ∈ bresenham_circle cx cy r,
      |((roundSqrt (((p.1 - cx) ^ 2 + (p.2 - cy) ^ 2).toNat) : Nat) : Int) - r| ≤ 1 := by
  rcases eq_or_lt_of_le hr with hr0 | hr1
  · intro p hp
    rw [← hr0] at hp ⊢
    rw [bresenham_circle_zero] at hp
    have hrs0 : roundSqrt 0 = 0 := by
      rw [roundSqrt]
      norm_num
    have hs2 : Nat.sqrt 2 = 1 := (Nat.eq_sqrt.mpr (by norm_num)).symm
    have hrs2 : roundSqrt 2 = 1 := by
      rw [roundSqrt, hs2]
      norm_num
    simp only [List.mem_cons, List.not_mem_nil, or_false] at hp
    obtain ⟨px, py⟩ := p
    rcases hp with h | h | h | h | h | h | h | h | h | h | h | h | h | h | h | h <;>
      rw [Prod.mk.injEq] at h <;> obtain ⟨h1, h2⟩ := h <;> subst h1 <;> subst h2 <;>
      · ring_nf
        norm_num [show (2 : Int).toNat = 2 from rfl, hrs0, hrs2]
  · intro p hp
    obtain ⟨px, py⟩ := p
    rw [bresenham_circle] at hp
    rcases List.mem_append.mp hp with hblk | hloop
    · have hs := add_circle_points_mem cx cy 0 r px py hblk
      apply roundSqrt_band r _ hr1
      · rw [hs]
        norm_num
        linarith
      · rw [hs]
        norm_num
        linarith
    · obtain ⟨hlo, hhi⟩ := circleLoop_dist cx cy r hr1 (r + 1).toNat 0 r (3 - 2 * r)
        (by omega) le_rfl le_rfl (by ring) (by omega) (fun _ => by omega) (px, py) hloop
      exact roundSqrt_band r _ hr1 hlo hhi

/-- Witness for `circle_dist_round` at `(cx, cy, r) = (0, 0, 0)` and the
center point `(0, 0)`. -/
theorem circle_dist_round_witness :
    (0 : Int) ≤ 0 ∧
      |((roundSqrt (((((0 : Int), (0 : Int)).1 - 0) ^ 2 +
          (((0 : Int), (0 : Int)).2 - 0) ^ 2).toNat) : Nat) : Int) - 0| ≤ 1 :=
  ⟨le_refl 0, circle_dist_round 0 0 0 (le_refl 0) ((0 : Int), (0 : Int))
    (by simp [bresenham_circle_zero])⟩

end Rasterization
